import Mathlib

/-!
Verification of `simple_parallel` (src/src/maps.rs).

The repository provides two parallel-map combinators: `unordered_map`, whose
iterator yields `(index, value)` pairs in arrival order, and `map`, which
wraps it with a `BinaryHeap`-based reorder buffer to restore input order.
Workers communicate over an mpsc channel; a `Panicker` drop-guard turns an
abnormal worker termination into a failure token (`data = None`).

Shallow embedding choices:
* a `Packet` is a structure with `idx : Nat` and `data : Option T`, exactly as
  in the source; `Packet.cmp`, `Packet.partialCmp` and `Packet.eq` embed the
  hand-written `Ord`, `PartialOrd` and `PartialEq` impls;
* the channel is the finite list of tokens the receiver observes, in arrival
  order; `recv` on the empty list models `Err(RecvError)` (channel closed,
  which happens once every worker has finished and dropped its sender clone);
  since the workers race, the arrival order is an arbitrary permutation of the
  canonical per-index send list, so theorems quantify over that permutation;
* a panic of the supplied closure is modelled by the worker's outcome function
  returning `none`; a `panic!` in an iterator is the `NextRes.panicked` result;
* the `BinaryHeap<Packet<T>>` is modelled as a list kept sorted so that the
  greatest packet under `Packet.cmp` (= the one with the smallest `idx`) is at
  the head: `heapPush` inserts in order, `heapPeek` is the head, popping takes
  the tail.  This is observationally the behaviour of the real max-heap.
-/

namespace SimpleParallel

/-- Sequencer token (struct `Packet` in maps.rs): a sequence number that is
unique for a given `*ParMap` instance, plus an optional payload (`None` marks
abnormal worker termination). -/
structure Packet (T : Type) where
  idx : Nat
  data : Option T
deriving DecidableEq

/-- Embedding of `impl Ord for Packet`: the ordering is reversed
(`other.idx.cmp(&self.idx)`) so the max-heap extracts the smallest index. -/
def Packet.cmp {T : Type} (a b : Packet T) : Ordering := compare b.idx a.idx

/-- Embedding of `impl PartialOrd for Packet`: `Some(self.cmp(other))`. -/
def Packet.partialCmp {T : Type} (a b : Packet T) : Option Ordering :=
  some (Packet.cmp a b)

/-- Embedding of `impl PartialEq for Packet`: equality on `idx` only. -/
def Packet.eq {T : Type} (a b : Packet T) : Bool := a.idx == b.idx

/-- Result of one `next()` call: a yielded item, a `panic!` raised to the
consumer, or iterator exhaustion (`None` in Rust). -/
inductive NextRes (α : Type) where
  | yield (a : α)
  | panicked
  | exhausted
deriving DecidableEq

/-- Model of `BinaryHeap::push`: insert keeping the list sorted with the
greatest packet under `Packet.cmp` (smallest `idx`) first. -/
def heapPush {T : Type} (p : Packet T) : List (Packet T) → List (Packet T)
  | [] => [p]
  | q :: Q => if Packet.cmp p q = .gt then p :: q :: Q else q :: heapPush p Q

/-- Model of `BinaryHeap::peek`: the greatest element, i.e. the head. -/
def heapPeek {T : Type} (Q : List (Packet T)) : Option (Packet T) := Q.head?

/-- Completion guard (struct `Panicker` in maps.rs).  The `tx` channel handle
is left implicit: sends are returned as token lists by the functions below. -/
structure Panicker (T : Type) where
  idx : Nat
  all_ok : Bool

/-- Embedding of `impl Drop for Panicker`: on scope exit, if `all_ok` is still
false, send a failure token for `idx` (the tokens a piece of code sends are
its returned list). -/
def Panicker.drop {T : Type} (p : Panicker T) : List (Packet T) :=
  if !p.all_ok then [Packet.mk p.idx none] else []

/-- One worker (the closure spawned in `unordered_map`): acquire the guard
with `all_ok = false`, evaluate `f elem` (`outcome = none` models a panic of
the closure), on normal return send the success token and set `all_ok`; the
guard's `drop` runs on every exit path.  The returned list is the sequence of
tokens this worker sends on the channel. -/
def workerRun {T : Type} (idx : Nat) (outcome : Option T) : List (Packet T) :=
  let p : Panicker T := ⟨idx, false⟩
  match outcome with
  | some v => [Packet.mk idx (some v)] ++ Panicker.drop (⟨p.idx, true⟩ : Panicker T)
  | none => Panicker.drop p

/-- Tokens sent by the workers for the input suffix `xs`, whose first element
gets index `i` (`iter.into_iter().enumerate()` starts `i` at 0); each worker's
sends are concatenated in index order.  The actual arrival order at the
receiver is an arbitrary permutation of this list. -/
def sendsFrom {α T : Type} (i : Nat) (f : α → Option T) : List α → List (Packet T)
  | [] => []
  | a :: r => workerRun i (f a) ++ sendsFrom (i + 1) f r

/-- The `UnorderedParMap` iterator: the receiver `rx` (modelled by the list of
tokens it will observe, canonical order) and the `_guards` vector, one join
handle per spawned worker. -/
structure UnorderedParMap (T : Type) where
  rx : List (Packet T)
  numGuards : Nat

/-- Embedding of `unordered_map`: spawn one worker per element of `iter`,
each sending through a clone of `tx`; collect the join handles. -/
def unordered_map {α T : Type} (f : α → Option T) (xs : List α) :
    UnorderedParMap T :=
  ⟨sendsFrom 0 f xs, xs.length⟩

/-- Embedding of `impl Iterator for UnorderedParMap`: one `next()` call.
`Ok(Packet { data: Some(x), idx })` yields `(idx, x)`; `Ok(Packet { data:
None, .. })` panics ("closure panicked"); `Err(RecvError)` is `None`. -/
def unorderedNext {T : Type} : List (Packet T) → NextRes (Nat × T) × List (Packet T)
  | [] => (.exhausted, [])
  | p :: C =>
    match p.data with
    | some x => (.yield (p.idx, x), C)
    | none => (.panicked, C)

/-- Consume an `UnorderedParMap` to exhaustion: the pairs yielded before the
iterator either panics (second component `true`) or is exhausted (`false`). -/
def runUnordered {T : Type} : List (Packet T) → List (Nat × T) × Bool
  | [] => ([], false)
  | p :: C =>
    match p.data with
    | some x =>
      let r := runUnordered C
      ((p.idx, x) :: r.1, r.2)
    | none => ([], true)

/-- State of the `ParMap` iterator: the wrapped unordered iterator's remaining
receive stream (`self.unordered.rx`), `looking_for`, and the reorder buffer
`queue`. -/
structure ParMapState (T : Type) where
  channel : List (Packet T)
  looking_for : Nat
  queue : List (Packet T)
deriving DecidableEq

/-- The head of the loop body in `ParMap::next`: if `queue.peek()` has
`idx == looking_for`, pop it, increment `looking_for` and return its payload
(panicking on a failure token); otherwise report that a `recv` is needed. -/
def tryPop {T : Type} (lf : Nat) (Q C : List (Packet T)) :
    Option (NextRes T × ParMapState T) :=
  match heapPeek Q with
  | some p =>
    if p.idx = lf then
      some (match p.data with
        | some x => (.yield x, ⟨C, lf + 1, Q.tail⟩)
        | none => (.panicked, ⟨C, lf + 1, Q.tail⟩))
    else none
  | none => none

/-- The loop of `ParMap::next`: try the pop; otherwise `recv` — on `Ok` push
the packet into the buffer and loop, on `Err(RecvError)` return `None`. -/
def parNextGo {T : Type} (lf : Nat) (Q : List (Packet T)) :
    List (Packet T) → NextRes T × ParMapState T
  | [] => (tryPop lf Q []).getD (.exhausted, ⟨[], lf, Q⟩)
  | c :: C =>
    match tryPop lf Q (c :: C) with
    | some r => r
    | none => parNextGo lf (heapPush c Q) C

/-- Embedding of `impl Iterator for ParMap`: one `next()` call. -/
def ParMap.next {T : Type} (s : ParMapState T) : NextRes T × ParMapState T :=
  parNextGo s.looking_for s.queue s.channel

/-- Embedding of `map`: wrap `unordered_map` with `looking_for = 0` and an
empty `BinaryHeap`. -/
def map {α T : Type} (f : α → Option T) (xs : List α) : ParMapState T :=
  ⟨(unordered_map f xs).rx, 0, []⟩

/-- Fuelled iteration of `ParMap::next` to exhaustion: the values yielded
before the iterator panics (`true`) or is exhausted (`false`).  Each yield
strictly decreases `channel.length + queue.length`, so any fuel above that
bound is enough (`runOrderedFuel_spec`). -/
def runOrderedFuel {T : Type} : Nat → ParMapState T → List T × Bool
  | 0, _ => ([], false)
  | n + 1, s =>
    match ParMap.next s with
    | (.yield x, s') =>
      let r := runOrderedFuel n s'
      (x :: r.1, r.2)
    | (.panicked, _) => ([], true)
    | (.exhausted, _) => ([], false)

/-- Consume a `ParMap` to exhaustion (with provably sufficient fuel). -/
def runOrdered {T : Type} (s : ParMapState T) : List T × Bool :=
  runOrderedFuel (s.channel.length + s.queue.length + 1) s

/-- The canonical token list for per-index worker outcomes `ys`, starting at
index `i`: token `j` carries index `i + j` and payload `ys[j]`. -/
def packetsFrom {T : Type} (i : Nat) : List (Option T) → List (Packet T)
  | [] => []
  | d :: ys => Packet.mk i d :: packetsFrom (i + 1) ys

/-- The values of the longest all-success prefix of a list of worker
outcomes. -/
def takeSuccesses {T : Type} : List (Option T) → List T
  | [] => []
  | some x :: ys => x :: takeSuccesses ys
  | none :: _ => []

/-- Whether a failure outcome is hit before the outcome list is exhausted. -/
def hitsFailure {T : Type} : List (Option T) → Bool
  | [] => false
  | some _ :: ys => hitsFailure ys
  | none :: _ => true

/-- The reorder buffer is sorted: smallest `idx` (greatest packet under
`Packet.cmp`) first. -/
def QSorted {T : Type} (Q : List (Packet T)) : Prop :=
  Q.Pairwise fun a b => a.idx ≤ b.idx

/-- States of a `ParMap` reachable by `next()` calls from the state built by
`map` over a channel whose arrival order is `C₀`.  A call that panics destroys
the iterator, so only yielding and exhausted calls continue. -/
inductive Reachable {T : Type} (C₀ : List (Packet T)) : ParMapState T → Prop where
  | start : Reachable C₀ ⟨C₀, 0, []⟩
  | stepYield (s s' : ParMapState T) (x : T) :
      Reachable C₀ s → ParMap.next s = (.yield x, s') → Reachable C₀ s'
  | stepDone (s s' : ParMapState T) :
      Reachable C₀ s → ParMap.next s = (.exhausted, s') → Reachable C₀ s'

/-- The ordered iterator's state invariants, for an initial channel `C₀`:
the reorder buffer is sorted and holds each index at most once; the buffer
holds exactly the received-but-not-yet-released tokens
(`queue.length + looking_for + channel.length = C₀.length`, i.e.
`queue.length = received − released`); and across any `next()` call
`looking_for` never decreases, increments by exactly one on a yield, and is
unchanged on exhaustion. -/
def orderedStateSpec {T : Type} (C₀ : List (Packet T)) (s : ParMapState T) : Prop :=
  QSorted s.queue ∧
  (s.queue.map Packet.idx).Nodup ∧
  s.queue.length + s.looking_for + s.channel.length = C₀.length ∧
  (∀ r s', ParMap.next s = (r, s') →
    s.looking_for ≤ s'.looking_for ∧
    (∀ x, r = NextRes.yield x → s'.looking_for = s.looking_for + 1) ∧
    (r = NextRes.exhausted → s'.looking_for = s.looking_for))

/-! ## Basic lemmas -/

theorem cmp_gt_iff {T : Type} (a b : Packet T) : Packet.cmp a b = .gt ↔ a.idx < b.idx := by
  simp [Packet.cmp, Nat.compare_eq_gt]

theorem heapPush_perm {T : Type} (p : Packet T) (Q : List (Packet T)) :
    (heapPush p Q).Perm (p :: Q) := by
  induction Q with
  | nil => simp [heapPush]
  | cons q Q ih =>
    rw [heapPush]
    split
    · exact List.Perm.refl _
    · exact (ih.cons q).trans (List.Perm.swap p q Q)

theorem heapPush_sorted {T : Type} {p : Packet T} {Q : List (Packet T)}
    (h : QSorted Q) : QSorted (heapPush p Q) := by
  induction Q with
  | nil => simp [heapPush, QSorted]
  | cons q Q ih =>
    rw [QSorted, List.pairwise_cons] at h
    rw [heapPush]
    split
    · rename_i hgt
      rw [cmp_gt_iff] at hgt
      refine List.Pairwise.cons ?_ (List.Pairwise.cons h.1 h.2)
      intro a ha
      rcases List.mem_cons.mp ha with rfl | ha
      · exact Nat.le_of_lt hgt
      · exact Nat.le_of_lt (Nat.lt_of_lt_of_le hgt (h.1 a ha))
    · rename_i hngt
      rw [cmp_gt_iff] at hngt
      refine List.Pairwise.cons ?_ (ih h.2)
      intro a ha
      rcases List.mem_cons.mp ((heapPush_perm p Q).mem_iff.mp ha) with rfl | ha
      · exact Nat.le_of_not_lt hngt
      · exact h.1 a ha

theorem packetsFrom_mem {T : Type} {p : Packet T} :
    ∀ {i : Nat} {ys : List (Option T)}, p ∈ packetsFrom i ys →
      ∃ j, ∃ h : j < ys.length, p = ⟨i + j, ys.get ⟨j, h⟩⟩ := by
  intro i ys
  induction ys generalizing i with
  | nil => intro h; simp [packetsFrom] at h
  | cons d ys ih =>
    intro hmem
    rw [packetsFrom, List.mem_cons] at hmem
    rcases hmem with rfl | hmem
    · exact ⟨0, by simp, by simp⟩
    · obtain ⟨j, hj, rfl⟩ := ih hmem
      exact ⟨j + 1, by simpa using hj, by simp [Nat.add_assoc, Nat.add_comm 1 j]⟩

theorem packetsFrom_mem_le {T : Type} {p : Packet T} {i : Nat}
    {ys : List (Option T)} (h : p ∈ packetsFrom i ys) : i ≤ p.idx := by
  obtain ⟨j, hj, rfl⟩ := packetsFrom_mem h
  exact Nat.le_add_right i j

theorem packetsFrom_mem_head {T : Type} {p : Packet T} {i : Nat} {d : Option T}
    {ys : List (Option T)} (h : p ∈ packetsFrom i (d :: ys)) (hidx : p.idx = i) :
    p = ⟨i, d⟩ := by
  obtain ⟨j, hj, rfl⟩ := packetsFrom_mem h
  have hj0 : j = 0 := by
    have := hidx
    simp only [Packet.mk.injEq] at this ⊢
    omega
  subst hj0
  simp

theorem packetsFrom_length {T : Type} (i : Nat) (ys : List (Option T)) :
    (packetsFrom i ys).length = ys.length := by
  induction ys generalizing i with
  | nil => rfl
  | cons d ys ih => simp [packetsFrom, ih]

theorem packetsFrom_map_idx {T : Type} (i : Nat) (ys : List (Option T)) :
    (packetsFrom i ys).map Packet.idx = List.range' i ys.length := by
  induction ys generalizing i with
  | nil => rfl
  | cons d ys ih => simp [packetsFrom, List.range', ih]

theorem sendsFrom_eq_packetsFrom {α T : Type} (f : α → Option T) :
    ∀ (xs : List α) (i : Nat), sendsFrom i f xs = packetsFrom i (xs.map f) := by
  intro xs
  induction xs with
  | nil => intro i; rfl
  | cons a xs ih =>
    intro i
    rw [sendsFrom, List.map_cons, packetsFrom, ← ih]
    cases h : f a <;> simp [workerRun, Panicker.drop, h]

/-! ## The reorder-buffer loop -/

/-- Case analysis of one run of the `ParMap::next` loop: either some packet
`p` with the wanted index is released (the remaining tokens are a permutation
of the old ones minus `p`, the result is its payload or a panic, and
`looking_for` is incremented), or the channel closes without the wanted index
at the head of the buffer and the call returns `None`. -/
theorem parNextGo_spec {T : Type} (lf : Nat) :
    ∀ (C Q : List (Packet T)), QSorted Q →
    (∃ p Q' C', p.idx = lf ∧ QSorted Q' ∧
        (p :: (Q' ++ C')).Perm (Q ++ C) ∧ C'.length ≤ C.length ∧
        parNextGo lf Q C =
          ((match p.data with
            | some x => NextRes.yield x
            | none => NextRes.panicked), ⟨C', lf + 1, Q'⟩)) ∨
    (∃ Q', QSorted Q' ∧ Q'.Perm (Q ++ C) ∧
        (∀ q, heapPeek Q' = some q → q.idx ≠ lf) ∧
        parNextGo lf Q C = (.exhausted, ⟨[], lf, Q'⟩)) := by
  intro C
  induction C with
  | nil =>
    intro Q hQ
    cases Q with
    | nil =>
      right
      exact ⟨[], List.Pairwise.nil, by simp, by simp [heapPeek], rfl⟩
    | cons p Q₂ =>
      by_cases hidx : p.idx = lf
      · left
        refine ⟨p, Q₂, [], hidx, (List.pairwise_cons.mp hQ).2, by simp, Nat.le_refl _, ?_⟩
        rw [parNextGo, tryPop]
        cases hd : p.data <;> simp [heapPeek, hidx, hd]
      · right
        refine ⟨p :: Q₂, hQ, by simp, ?_, ?_⟩
        · intro q hq
          simp only [heapPeek, List.head?_cons, Option.some.injEq] at hq
          exact hq ▸ hidx
        · rw [parNextGo, tryPop]
          simp [heapPeek, hidx]
  | cons c C₂ ih =>
    intro Q hQ
    cases Q with
    | nil =>
      have h1 : parNextGo lf [] (c :: C₂) = parNextGo lf (heapPush c []) C₂ := by
        rw [parNextGo, tryPop]; rfl
      rcases ih (heapPush c []) (heapPush_sorted List.Pairwise.nil) with
        ⟨p, Q', C', hidx, hQ', hperm, hlen, heq⟩ | ⟨Q', hQ', hperm, hhead, heq⟩
      · left
        refine ⟨p, Q', C', hidx, hQ', ?_, Nat.le_succ_of_le hlen, h1.trans heq⟩
        simpa [heapPush] using hperm
      · right
        refine ⟨Q', hQ', ?_, hhead, h1.trans heq⟩
        simpa [heapPush] using hperm
    | cons p Q₂ =>
      by_cases hidx : p.idx = lf
      · left
        refine ⟨p, Q₂, c :: C₂, hidx, (List.pairwise_cons.mp hQ).2, by simp,
          Nat.le_refl _, ?_⟩
        rw [parNextGo, tryPop]
        cases hd : p.data <;> simp [heapPeek, hidx, hd]
      · have h1 : parNextGo lf (p :: Q₂) (c :: C₂) =
            parNextGo lf (heapPush c (p :: Q₂)) C₂ := by
          rw [parNextGo, tryPop]
          simp [heapPeek, hidx]
        have hperm0 : (heapPush c (p :: Q₂) ++ C₂).Perm ((p :: Q₂) ++ (c :: C₂)) :=
          ((heapPush_perm c (p :: Q₂)).append_right C₂).trans List.perm_middle.symm
        rcases ih (heapPush c (p :: Q₂)) (heapPush_sorted hQ) with
          ⟨p', Q', C', hidx', hQ', hperm, hlen, heq⟩ | ⟨Q', hQ', hperm, hhead, heq⟩
        · exact Or.inl ⟨p', Q', C', hidx', hQ', hperm.trans hperm0,
            Nat.le_succ_of_le hlen, h1.trans heq⟩
        · exact Or.inr ⟨Q', hQ', hperm.trans hperm0, hhead, h1.trans heq⟩

/-- Consuming `ParMap` to exhaustion, from any state whose outstanding tokens
(buffer plus channel, in any arrival order) are exactly one token per index
`lf, lf+1, …` with payloads `ys`: the iterator yields the values of the
all-success prefix of `ys` in order and then panics if a failure token is next
in sequence, or terminates normally if `ys` is exhausted first. -/
theorem runOrderedFuel_spec {T : Type} :
    ∀ (ys : List (Option T)) (fuel lf : Nat) (Q C : List (Packet T)),
      QSorted Q → (Q ++ C).Perm (packetsFrom lf ys) → ys.length < fuel →
      runOrderedFuel fuel ⟨C, lf, Q⟩ = (takeSuccesses ys, hitsFailure ys) := by
  intro ys
  induction ys with
  | nil =>
    intro fuel lf Q C hQ hperm hfuel
    rcases List.append_eq_nil.mp (List.Perm.eq_nil hperm) with ⟨rfl, rfl⟩
    obtain ⟨n, rfl⟩ : ∃ n, fuel = n + 1 := ⟨fuel - 1, by omega⟩
    simp [runOrderedFuel, ParMap.next, parNextGo, tryPop, heapPeek,
      takeSuccesses, hitsFailure]
  | cons d ys₂ ih =>
    intro fuel lf Q C hQ hperm hfuel
    obtain ⟨n, rfl⟩ : ∃ n, fuel = n + 1 := ⟨fuel - 1, by omega⟩
    rcases parNextGo_spec lf C Q hQ with
      ⟨p, Q', C', hidx, hQ', hp, hlen, heq⟩ | ⟨Q', hQ', hp, hhead, heq⟩
    · have hpmem : p ∈ packetsFrom lf (d :: ys₂) :=
        hperm.subset (hp.subset (List.mem_cons_self _ _))
      have hpd : p = ⟨lf, d⟩ := packetsFrom_mem_head hpmem hidx
      subst hpd
      have hperm2 : (Q' ++ C').Perm (packetsFrom (lf + 1) ys₂) := by
        have h3 := (hp.trans hperm).cons_inv
        simpa [packetsFrom] using hp.trans hperm |>.cons_inv
      have hfuel2 : ys₂.length < n := by
        simp only [List.length_cons] at hfuel
        omega
      cases d with
      | some x =>
        have hnext : ParMap.next (⟨C, lf, Q⟩ : ParMapState T) =
            (.yield x, ⟨C', lf + 1, Q'⟩) := heq
        have ihr := ih n (lf + 1) Q' C' hQ' hperm2 hfuel2
        simp [runOrderedFuel, hnext, ihr, takeSuccesses, hitsFailure]
      | none =>
        have hnext : ParMap.next (⟨C, lf, Q⟩ : ParMapState T) =
            (.panicked, ⟨C', lf + 1, Q'⟩) := heq
        simp [runOrderedFuel, hnext, takeSuccesses, hitsFailure]
    · exfalso
      have hmem0 : (⟨lf, d⟩ : Packet T) ∈ packetsFrom lf (d :: ys₂) := by
        rw [packetsFrom]; exact List.mem_cons_self _ _
      have hmemQ' : (⟨lf, d⟩ : Packet T) ∈ Q' :=
        hp.mem_iff.mpr (hperm.mem_iff.mpr hmem0)
      cases Q' with
      | nil => simp at hmemQ'
      | cons q Q₃ =>
        have hq : q.idx ≠ lf := hhead q (by simp [heapPeek])
        rcases List.mem_cons.mp hmemQ' with heq2 | hmem3
        · exact hq (congrArg Packet.idx heq2.symm)
        · have h5 : q.idx ≤ lf := (List.pairwise_cons.mp hQ').1 _ hmem3
          have h6 : lf ≤ q.idx :=
            packetsFrom_mem_le (hperm.subset (hp.subset (List.mem_cons_self q Q₃)))
          exact hq (Nat.le_antisymm h5 h6)

/-- Specialisation of `runOrderedFuel_spec` to the canonical fuel used by
`runOrdered`. -/
theorem runOrdered_spec {T : Type} (ys : List (Option T)) (lf : Nat)
    (Q C : List (Packet T)) (hQ : QSorted Q)
    (hperm : (Q ++ C).Perm (packetsFrom lf ys)) :
    runOrdered ⟨C, lf, Q⟩ = (takeSuccesses ys, hitsFailure ys) := by
  have hlen := hperm.length_eq
  rw [List.length_append, packetsFrom_length] at hlen
  rw [runOrdered]
  exact runOrderedFuel_spec ys _ lf Q C hQ hperm (by simp; omega)

theorem takeSuccesses_map_some {α T : Type} (f : α → T) (xs : List α) :
    takeSuccesses (xs.map fun a => some (f a)) = xs.map f := by
  induction xs with
  | nil => rfl
  | cons a xs ih => simp [takeSuccesses, ih]

theorem hitsFailure_map_some {α T : Type} (f : α → T) (xs : List α) :
    hitsFailure (xs.map fun a => some (f a)) = false := by
  induction xs with
  | nil => rfl
  | cons a xs ih => simp [hitsFailure, ih]

/-- When every pending token is a success token, the unordered iterator never
panics and yields each token's `(index, value)` pair in arrival order. -/
theorem runUnordered_all_some {T : Type} :
    ∀ (C : List (Packet T)), (∀ p ∈ C, (Packet.data p).isSome) →
      runUnordered C =
        (C.filterMap (fun p => (Packet.data p).map fun x => (p.idx, x)), false) := by
  intro C
  induction C with
  | nil => intro _; rfl
  | cons p C ih =>
    intro hall
    have hp := hall p (List.mem_cons_self _ _)
    obtain ⟨x, hx⟩ := Option.isSome_iff_exists.mp hp
    rw [runUnordered, hx]
    have ihr := ih fun q hq => hall q (List.mem_cons_of_mem _ hq)
    simp [ihr, List.filterMap_cons, hx]

/-- The pairs carried by the canonical all-success token list are the
enumeration of the mapped input. -/
theorem packetsFrom_pairs {α T : Type} (f : α → T) :
    ∀ (xs : List α) (i : Nat),
      (packetsFrom i (xs.map fun a => some (f a))).filterMap
          (fun p => (Packet.data p).map fun x => (p.idx, x)) =
        (xs.map f).enumFrom i := by
  intro xs
  induction xs with
  | nil => intro i; rfl
  | cons a xs ih => intro i; simp [packetsFrom, List.filterMap_cons, List.enumFrom, ih]

/-! ## Claims -/

/-- C1: for every finite input sequence and every pure (non-failing) function
`f`, iterating the ordered `map` to exhaustion — over any arrival order `C` of
the workers' tokens — yields exactly `xs.map f`, element for element in input
order, followed by end-of-sequence (no panic). -/
theorem ordered_map_yields_sequential_map {α T : Type} (f : α → T) (xs : List α)
    (C : List (Packet T))
    (hC : C.Perm ((map (fun a => some (f a)) xs).channel)) :
    runOrdered ⟨C, 0, []⟩ = (xs.map f, false) := by
  have h1 : (([] : List (Packet T)) ++ C).Perm
      (packetsFrom 0 (xs.map fun a => some (f a))) := by
    simpa [map, unordered_map, sendsFrom_eq_packetsFrom] using hC
  have h2 := runOrdered_spec (xs.map fun a => some (f a)) 0 [] C List.Pairwise.nil h1
  rwa [takeSuccesses_map_some, hitsFailure_map_some] at h2

theorem ordered_map_yields_sequential_map_witness :
    ([⟨2, some 9⟩, ⟨0, some 1⟩, ⟨1, some 4⟩] : List (Packet Nat)).Perm
      ((map (fun a : Nat => some (a * a)) [1, 2, 3]).channel) ∧
    runOrdered (⟨[⟨2, some 9⟩, ⟨0, some 1⟩, ⟨1, some 4⟩], 0, []⟩ : ParMapState Nat) =
      ([1, 4, 9], false) :=
  ⟨by decide,
   ordered_map_yields_sequential_map (fun a : Nat => a * a) [1, 2, 3] _ (by decide)⟩

/-- C3: the unordered iterator's `next` yields `(index, value)` on a success
token, panics (rather than returning end-of-stream) on a failure token, and
returns end-of-sequence only on a closed channel with no pending token; a
failure is never reported as exhaustion. -/
theorem unordered_next_contract {T : Type} (i : Nat) (x : T)
    (rest : List (Packet T)) :
    unorderedNext (Packet.mk i (some x) :: rest) = (.yield (i, x), rest) ∧
    unorderedNext (Packet.mk i none :: rest) = (.panicked, rest) ∧
    unorderedNext ([] : List (Packet T)) = (.exhausted, []) ∧
    (unorderedNext (Packet.mk i none :: rest)).1 ≠ .exhausted := by
  refine ⟨rfl, rfl, rfl, ?_⟩
  rw [unorderedNext]
  simp

/-- C4: each worker sends exactly one token: on normal return of the closure,
one success token (and the guard's failure send is suppressed because
`all_ok` was set); on abnormal termination, the guard's drop sends exactly one
failure token for the worker's index.  Never zero or two tokens. -/
theorem worker_sends_exactly_one_token {T : Type} (i : Nat) (v : T) :
    workerRun i (some v) = [Packet.mk i (some v)] ∧
    workerRun i (none : Option T) = [Packet.mk i none] ∧
    (∀ o : Option T, (workerRun i o).length = 1) ∧
    Panicker.drop (⟨i, true⟩ : Panicker T) = [] ∧
    Panicker.drop (⟨i, false⟩ : Panicker T) = [Packet.mk i none] := by
  refine ⟨rfl, rfl, ?_, rfl, rfl⟩
  intro o
  cases o <;> rfl

/-- C9: on the empty input both combinators spawn zero workers, and the very
first `next` call on either iterator returns end-of-sequence. -/
theorem empty_input_immediate_end {α T : Type} (f : α → Option T) :
    (unordered_map f ([] : List α)).numGuards = 0 ∧
    (unordered_map f ([] : List α)).rx = [] ∧
    unorderedNext (unordered_map f ([] : List α)).rx = (.exhausted, []) ∧
    ParMap.next (map f ([] : List α)) = (.exhausted, ⟨[], 0, []⟩) :=
  ⟨rfl, rfl, rfl, rfl⟩

/-- C10: the token comparison and equality ignore the payload entirely: two
tokens with the same index compare equal (and test equal) even when one is a
success token and the other a failure token. -/
theorem packet_eq_ignores_payload {T : Type} (i : Nat) (d d' : Option T) (x : T) :
    Packet.eq ⟨i, d⟩ ⟨i, d'⟩ = true ∧
    Packet.cmp ⟨i, d⟩ ⟨i, d'⟩ = .eq ∧
    Packet.eq ⟨i, some x⟩ ⟨i, none⟩ = true ∧
    Packet.partialCmp ⟨i, some x⟩ ⟨i, none⟩ = some .eq := by
  have hcmp : ∀ d₁ d₂ : Option T, Packet.cmp ⟨i, d₁⟩ ⟨i, d₂⟩ = .eq := by
    intro d₁ d₂
    simp [Packet.cmp, Nat.compare_eq_eq]
  exact ⟨by simp [Packet.eq], hcmp d d', by simp [Packet.eq], by
    rw [Packet.partialCmp, hcmp]⟩

/-- If the first failure in the outcome list `ys` is at position `k` (all
other positions succeed), the ordered run yields exactly the first `k` values
and then hits the failure. -/
theorem takeSuccesses_first_none {T : Type} :
    ∀ (ys : List (Option T)) (k : Nat) (hk : k < ys.length),
      ys.get ⟨k, hk⟩ = none →
      (∀ i (h : i < ys.length), i ≠ k → (ys.get ⟨i, h⟩).isSome) →
      takeSuccesses ys = (ys.take k).filterMap id ∧
      hitsFailure ys = true ∧ ((ys.take k).filterMap id).length = k := by
  intro ys
  induction ys with
  | nil => intro k hk; exact absurd hk (by simp)
  | cons d ys ih =>
    intro k hk hfail hok
    cases k with
    | zero =>
      have hd : d = none := by simpa using hfail
      subst hd
      simp [takeSuccesses, hitsFailure]
    | succ j =>
      have hd : d.isSome := by simpa using hok 0 (by simp) (by simp)
      obtain ⟨v, rfl⟩ := Option.isSome_iff_exists.mp hd
      have hk2 : j < ys.length := by simpa using hk
      have hfail2 : ys.get ⟨j, hk2⟩ = none := by simpa using hfail
      have hok2 : ∀ i (h : i < ys.length), i ≠ j → (ys.get ⟨i, h⟩).isSome := by
        intro i h hne
        simpa using hok (i + 1) (by simpa using Nat.succ_lt_succ h) (by omega)
      obtain ⟨h1, h2, h3⟩ := ih j hk2 hfail2 hok2
      exact ⟨by simp [takeSuccesses, List.filterMap_cons, h1],
        by simp [hitsFailure, h2],
        by simp [List.filterMap_cons, h3]⟩

/-- C2: if exactly the worker for input index `k` terminates abnormally and
all others succeed, the ordered iterator yields the first `k` successful
values in input order (exactly `k` of them), then raises the fatal signal, and
never yields a value for any index beyond `k`; the failure is not surfaced
before position `k` is reached. -/
theorem ordered_map_failure_at_k {α T : Type} (f : α → Option T) (xs : List α)
    (k : Nat) (C : List (Packet T)) (hk : k < xs.length)
    (hfail : f (xs.get ⟨k, hk⟩) = none)
    (hok : ∀ i (h : i < xs.length), i ≠ k → (f (xs.get ⟨i, h⟩)).isSome)
    (hC : C.Perm ((map f xs).channel)) :
    runOrdered ⟨C, 0, []⟩ = (((xs.map f).take k).filterMap id, true) ∧
    (((xs.map f).take k).filterMap id).length = k := by
  have hk' : k < (xs.map f).length := by simpa using hk
  have hfail' : (xs.map f).get ⟨k, hk'⟩ = none := by simpa using hfail
  have hok' : ∀ i (h : i < (xs.map f).length), i ≠ k →
      ((xs.map f).get ⟨i, h⟩).isSome := by
    intro i h hne
    have h2 : i < xs.length := by simpa using h
    simpa using hok i h2 hne
  obtain ⟨h1, h2, h3⟩ := takeSuccesses_first_none (xs.map f) k hk' hfail' hok'
  have hperm : (([] : List (Packet T)) ++ C).Perm (packetsFrom 0 (xs.map f)) := by
    simpa [map, unordered_map, sendsFrom_eq_packetsFrom] using hC
  have h4 := runOrdered_spec (xs.map f) 0 [] C List.Pairwise.nil hperm
  rw [h1, h2] at h4
  exact ⟨h4, h3⟩

theorem ordered_map_failure_at_k_witness :
    (1 : Nat) < ([1, 2, 3] : List Nat).length ∧
    runOrdered (⟨[⟨2, some 30⟩, ⟨1, none⟩, ⟨0, some 10⟩], 0, []⟩ : ParMapState Nat) =
      ([10], true) :=
  ⟨by decide,
   (ordered_map_failure_at_k (fun n : Nat => if n = 2 then none else some (n * 10))
      [1, 2, 3] 1 _ (by decide) (by decide) (by decide) (by decide)).1⟩

theorem packetsFrom_mem_isSome {α T : Type} (f : α → T) {p : Packet T} {i : Nat}
    {xs : List α} (h : p ∈ packetsFrom i (xs.map fun a => some (f a))) :
    (Packet.data p).isSome := by
  obtain ⟨j, hj, rfl⟩ := packetsFrom_mem h
  simp

/-- C5: on a pure function the unordered iterator's `(index, value)` pairs are
(as a multiset) the enumeration of the sequential map, its values are the same
multiset as the ordered iterator's output, and neither iterator panics: the
two operations differ only in yield order. -/
theorem unordered_matches_ordered_multiset {α T : Type} (f : α → T) (xs : List α)
    (C C' : List (Packet T))
    (hC : C.Perm ((unordered_map (fun a => some (f a)) xs).rx))
    (hC' : C'.Perm ((unordered_map (fun a => some (f a)) xs).rx)) :
    (runUnordered C).1.Perm ((xs.map f).enumFrom 0) ∧
    ((runUnordered C).1.map Prod.snd).Perm ((runOrdered ⟨C', 0, []⟩).1) ∧
    (runUnordered C).2 = false ∧ (runOrdered ⟨C', 0, []⟩).2 = false := by
  have hCp : C.Perm (packetsFrom 0 (xs.map fun a => some (f a))) := by
    simpa [unordered_map, sendsFrom_eq_packetsFrom] using hC
  have hC'p : (([] : List (Packet T)) ++ C').Perm
      (packetsFrom 0 (xs.map fun a => some (f a))) := by
    simpa [unordered_map, sendsFrom_eq_packetsFrom] using hC'
  have hall : ∀ p ∈ C, (Packet.data p).isSome := fun p hp =>
    packetsFrom_mem_isSome f (hCp.subset hp)
  have hrun := runUnordered_all_some C hall
  have hord := runOrdered_spec (xs.map fun a => some (f a)) 0 [] C'
    List.Pairwise.nil hC'p
  rw [takeSuccesses_map_some, hitsFailure_map_some] at hord
  have hpairs : (runUnordered C).1.Perm ((xs.map f).enumFrom 0) := by
    rw [hrun]
    exact (hCp.filterMap _).trans (by rw [packetsFrom_pairs])
  refine ⟨hpairs, ?_, by rw [hrun], by rw [hord]⟩
  have hvals := hpairs.map Prod.snd
  rw [List.enumFrom_map_snd] at hvals
  rw [hord]
  exact hvals

theorem unordered_matches_ordered_multiset_witness :
    ((runUnordered ([⟨1, some 4⟩, ⟨0, some 1⟩] : List (Packet Nat))).1.map
      Prod.snd).Perm
      ((runOrdered (⟨[⟨0, some 1⟩, ⟨1, some 4⟩], 0, []⟩ : ParMapState Nat)).1) ∧
    (runUnordered ([⟨1, some 4⟩, ⟨0, some 1⟩] : List (Packet Nat))).2 = false :=
  ⟨(unordered_matches_ordered_multiset (fun a : Nat => a * a) [1, 2] _ _
      (by decide) (by decide)).2.1,
   (unordered_matches_ordered_multiset (fun a : Nat => a * a) [1, 2]
      [⟨1, some 4⟩, ⟨0, some 1⟩] [⟨0, some 1⟩, ⟨1, some 4⟩]
      (by decide) (by decide)).2.2.1⟩

/-- C6: one combinator call spawns one worker per input element and the
channel carries exactly `N` tokens, whose indices are exactly the dense range
`0..N`, each occurring once; every received token produces exactly one yield
(a success pair or the fatal signal — never exhaustion), so consuming the
call's stream produces exactly `N` yields. -/
theorem unordered_yields_dense_indices {α T : Type} (f : α → Option T)
    (xs : List α) (C : List (Packet T))
    (hC : C.Perm ((unordered_map f xs).rx)) :
    (unordered_map f xs).numGuards = xs.length ∧
    C.length = xs.length ∧
    (C.map Packet.idx).Perm (List.range xs.length) ∧
    (∀ (p : Packet T) (rest : List (Packet T)),
      (unorderedNext (p :: rest)).1 ≠ NextRes.exhausted ∧
      (unorderedNext (p :: rest)).2 = rest) := by
  have hCp : C.Perm (packetsFrom 0 (xs.map f)) := by
    simpa [unordered_map, sendsFrom_eq_packetsFrom] using hC
  refine ⟨rfl, ?_, ?_, ?_⟩
  · rw [hCp.length_eq, packetsFrom_length, List.length_map]
  · have h1 := hCp.map Packet.idx
    rw [packetsFrom_map_idx, List.length_map, ← List.range_eq_range'] at h1
    exact h1
  · intro p rest
    cases hd : p.data <;> simp [unorderedNext, hd]

theorem unordered_yields_dense_indices_witness :
    (unordered_map (fun n : Nat => if n = 2 then none else some n)
      [1, 2, 3]).numGuards = 3 ∧
    (([⟨1, none⟩, ⟨2, some 3⟩, ⟨0, some 1⟩] : List (Packet Nat)).map
      Packet.idx).Perm (List.range 3) :=
  ⟨(unordered_yields_dense_indices (fun n : Nat => if n = 2 then none else some n)
      [1, 2, 3] [⟨1, none⟩, ⟨2, some 3⟩, ⟨0, some 1⟩] (by decide)).1,
   (unordered_yields_dense_indices (fun n : Nat => if n = 2 then none else some n)
      [1, 2, 3] [⟨1, none⟩, ⟨2, some 3⟩, ⟨0, some 1⟩] (by decide)).2.2.1⟩

theorem heapPushAll_sorted {T : Type} :
    ∀ (ps Q : List (Packet T)), QSorted Q →
      QSorted (ps.foldl (fun Q p => heapPush p Q) Q) := by
  intro ps
  induction ps with
  | nil => intro Q hQ; exact hQ
  | cons p ps ih => intro Q hQ; exact ih (heapPush p Q) (heapPush_sorted hQ)

theorem heapPushAll_perm {T : Type} :
    ∀ (ps Q : List (Packet T)),
      (ps.foldl (fun Q p => heapPush p Q) Q).Perm (Q ++ ps) := by
  intro ps
  induction ps with
  | nil => intro Q; simp
  | cons p ps ih =>
    intro Q
    simp only [List.foldl_cons]
    exact (ih (heapPush p Q)).trans
      (((heapPush_perm p Q).append_right ps).trans List.perm_middle.symm)

/-- C7: the token comparison inverts the natural index order — `a` compares
greater than `b` exactly when `a.idx < b.idx` — so the max-extraction
`BinaryHeap` always has a token of smallest index at its top: whatever
sequence of pushes built the heap, the peeked token's index is a lower bound
of every pushed token's index. -/
theorem packet_ord_inverted_min_first {T : Type} (a b : Packet T) :
    (Packet.cmp a b = .gt ↔ a.idx < b.idx) ∧
    (∀ (ps : List (Packet T)) (c q : Packet T),
      heapPeek (ps.foldl (fun Q p => heapPush p Q) []) = some c →
      q ∈ ps → c.idx ≤ q.idx) := by
  refine ⟨cmp_gt_iff a b, ?_⟩
  intro ps c q hpeek hq
  have hsorted : QSorted (ps.foldl (fun Q p => heapPush p Q) []) :=
    heapPushAll_sorted ps [] List.Pairwise.nil
  have hperm : (ps.foldl (fun Q p => heapPush p Q) []).Perm ps := by
    simpa using heapPushAll_perm ps []
  have hqL : q ∈ ps.foldl (fun Q p => heapPush p Q) [] := hperm.mem_iff.mpr hq
  cases hL : ps.foldl (fun Q p => heapPush p Q) [] with
  | nil => rw [hL] at hpeek; simp [heapPeek] at hpeek
  | cons c₀ L₂ =>
    rw [hL] at hpeek hqL hsorted
    simp only [heapPeek, List.head?_cons, Option.some.injEq] at hpeek
    subst hpeek
    rcases List.mem_cons.mp hqL with rfl | hq2
    · exact Nat.le_refl _
    · exact (List.pairwise_cons.mp hsorted).1 q hq2

theorem packet_ord_inverted_min_first_witness :
    (Packet.cmp (⟨0, some 1⟩ : Packet Nat) ⟨1, none⟩ = .gt ↔ (0 : Nat) < 1) ∧
    (⟨0, some 7⟩ : Packet Nat).idx ≤ (⟨2, some 5⟩ : Packet Nat).idx :=
  ⟨(packet_ord_inverted_min_first (⟨0, some 1⟩ : Packet Nat) ⟨1, none⟩).1,
   (packet_ord_inverted_min_first (⟨0, some 1⟩ : Packet Nat) ⟨1, none⟩).2
     [⟨2, some 5⟩, ⟨0, some 7⟩, ⟨1, some 9⟩] ⟨0, some 7⟩ ⟨2, some 5⟩
     (by decide) (by decide)⟩

/-- Invariant preservation along reachable states of the ordered iterator:
the buffer stays sorted, the indices of all outstanding tokens stay distinct,
and buffered + released + still-in-channel token counts add up to the initial
channel length. -/
theorem reachable_inv {T : Type} (C₀ : List (Packet T))
    (hnd : (C₀.map Packet.idx).Nodup) :
    ∀ s, Reachable C₀ s →
      QSorted s.queue ∧ ((s.queue ++ s.channel).map Packet.idx).Nodup ∧
      s.queue.length + s.looking_for + s.channel.length = C₀.length := by
  intro s hr
  induction hr with
  | start => exact ⟨List.Pairwise.nil, by simpa using hnd, by simp⟩
  | stepYield s s' x hr hnext ih =>
    obtain ⟨hs, hndup, hsum⟩ := ih
    rw [ParMap.next] at hnext
    rcases parNextGo_spec s.looking_for s.channel s.queue hs with
      ⟨p, Q', C', hidx, hQ', hp, hlen, heq⟩ | ⟨Q', hQ', hp, hhead, heq⟩
    · rw [heq] at hnext
      have hlens := hp.length_eq
      have hnodup2 : ((Q' ++ C').map Packet.idx).Nodup := by
        have h5 := ((hp.map Packet.idx).nodup_iff).mpr hndup
        exact List.Nodup.of_cons h5
      cases hd : p.data with
      | some x₀ =>
        rw [hd] at hnext
        injection hnext with h1 h2
        subst h2
        refine ⟨hQ', hnodup2, ?_⟩
        simp only [List.length_cons, List.length_append] at hlens hsum ⊢
        omega
      | none =>
        rw [hd] at hnext
        injection hnext with h1 h2
        exact absurd h1 (by simp)
    · rw [heq] at hnext
      injection hnext with h1 h2
      exact absurd h1 (by simp)
  | stepDone s s' hr hnext ih =>
    obtain ⟨hs, hndup, hsum⟩ := ih
    rw [ParMap.next] at hnext
    rcases parNextGo_spec s.looking_for s.channel s.queue hs with
      ⟨p, Q', C', hidx, hQ', hp, hlen, heq⟩ | ⟨Q', hQ', hp, hhead, heq⟩
    · rw [heq] at hnext
      cases hd : p.data <;> rw [hd] at hnext <;> injection hnext with h1 h2 <;>
        exact absurd h1 (by simp)
    · rw [heq] at hnext
      injection hnext with h1 h2
      subst h2
      have hlens := hp.length_eq
      refine ⟨hQ', ?_, ?_⟩
      · simpa using ((hp.map Packet.idx).nodup_iff).mpr hndup
      · simp only [List.length_append, List.length_nil] at hlens hsum ⊢
        omega

/-- C8: the ordered iterator's state satisfies, before and after every `next`
call: `looking_for` starts at 0 at construction (`map`), increments by exactly
1 on each released value and only then (unchanged on exhaustion), and never
decreases; every index appears at most once in the pending buffer; and the
buffer holds exactly the received-but-not-yet-released tokens, hence never
more entries than workers whose token was received but not yet released. -/
theorem ordered_iterator_state_invariants {T : Type} (C₀ : List (Packet T))
    (s : ParMapState T) (hnd : (C₀.map Packet.idx).Nodup)
    (hr : Reachable C₀ s) :
    orderedStateSpec C₀ s ∧
    ∀ (α : Type) (f : α → Option T) (xs : List α),
      (map f xs).looking_for = 0 ∧ (map f xs).queue = [] := by
  obtain ⟨hs, hndup, hsum⟩ := reachable_inv C₀ hnd s hr
  refine ⟨⟨hs, ?_, hsum, ?_⟩, fun α f xs => ⟨rfl, rfl⟩⟩
  · rw [List.map_append] at hndup
    exact hndup.of_append_left
  · intro r s' hnext
    rw [ParMap.next] at hnext
    rcases parNextGo_spec s.looking_for s.channel s.queue hs with
      ⟨p, Q', C', hidx, hQ', hp, hlen, heq⟩ | ⟨Q', hQ', hp, hhead, heq⟩
    · rw [heq] at hnext
      cases hd : p.data with
      | some x₀ =>
        rw [hd] at hnext
        injection hnext with h1 h2
        subst h1
        subst h2
        refine ⟨Nat.le_succ _, fun x hx => rfl, fun hx => absurd hx (by simp)⟩
      | none =>
        rw [hd] at hnext
        injection hnext with h1 h2
        subst h1
        subst h2
        exact ⟨Nat.le_succ _, fun x hx => absurd hx (by simp),
          fun hx => absurd hx (by simp)⟩
    · rw [heq] at hnext
      injection hnext with h1 h2
      subst h1
      subst h2
      exact ⟨Nat.le_refl _, fun x hx => absurd hx (by simp), fun hx => rfl⟩

theorem ordered_iterator_state_invariants_witness :
    orderedStateSpec ([(⟨0, some 5⟩ : Packet Nat)])
      (⟨[(⟨0, some 5⟩ : Packet Nat)], 0, []⟩ : ParMapState Nat) ∧
    (map (fun n : Nat => some (n + 1)) [3, 4]).looking_for = 0 :=
  ⟨(ordered_iterator_state_invariants [(⟨0, some 5⟩ : Packet Nat)]
      ⟨[⟨0, some 5⟩], 0, []⟩ (by decide) Reachable.start).1,
   ((ordered_iterator_state_invariants [(⟨0, some 5⟩ : Packet Nat)]
      ⟨[⟨0, some 5⟩], 0, []⟩ (by decide) Reachable.start).2 Nat
      (fun n : Nat => some (n + 1)) [3, 4]).1⟩

end SimpleParallel
